import Mathlib

/-!
# Verification of the koa compiler core (translate and parse packages)

Shallow embedding of `src/translate/tracer.go`, `src/translate/bytecode.go`
and `src/parse/lex.go` into Lean 4, together with theorems settling the
specification claims about the memory-layout tracer, the bytecode
assembler and the lexer driver loop.

Go byte slices are modelled as `List Nat` (each element a byte value),
Go `int` sizes and offsets as `Nat` (they are always non-negative here),
Go maps as association lists with one binding per key (insert-or-replace),
and Go `error` results as `Option`/`Except` values.
-/

namespace Koa

/-! ## Memory entry tracer — from src/translate/tracer.go -/

/-- `EntryError` from tracer.go: an error value carrying the missing id. -/
structure EntryError where
  Id : String
deriving Repr, DecidableEq

/-- `func (e EntryError) Error() string` from tracer.go:
returns `"[<id>] definition doesn't exist"`. -/
def EntryError.Error (e : EntryError) : String :=
  "[" ++ e.Id ++ "] definition doesn't exist"

/-- `MemEntry` from tracer.go: size and offset of a defined variable. -/
structure MemEntry where
  Offset : Nat
  Size : Nat
deriving Repr, DecidableEq

/-- Model of a Go `map[string]MemEntry`: an association list holding at
most one binding per key; `mapInsert` replaces an existing binding in
place or appends a fresh one, mirroring Go map assignment `m[id] = e`. -/
def mapInsert : List (String × MemEntry) → String → MemEntry → List (String × MemEntry)
  | [], id, e => [(id, e)]
  | p :: ps, id, e => if p.1 = id then (id, e) :: ps else p :: mapInsert ps id e

/-- Model of a Go map lookup `entry, ok := m[id]`. -/
def mapLookup (m : List (String × MemEntry)) (id : String) : Option MemEntry :=
  (m.find? (fun p => p.1 = id)).map (·.2)

/-- `MemEntryTable` from tracer.go. -/
structure MemEntryTable where
  EntryMap : List (String × MemEntry)
  MemoryCounter : Nat
deriving Repr, DecidableEq

/-- `NewMemEntryTable()` from tracer.go. -/
def NewMemEntryTable : MemEntryTable :=
  { EntryMap := [], MemoryCounter := 0 }

/-- `func (m *MemEntryTable) Define(id string, value []byte) MemEntry`
from tracer.go; returns the updated table together with the returned
entry (Go mutates the receiver and returns the entry). -/
def MemEntryTable.Define (m : MemEntryTable) (id : String) (value : List Nat) :
    MemEntryTable × MemEntry :=
  let entry : MemEntry := { Offset := m.MemoryCounter, Size := value.length }
  ({ EntryMap := mapInsert m.EntryMap id entry
     MemoryCounter := m.MemoryCounter + value.length }, entry)

/-- `func (m MemEntryTable) GetOffsetOfEntry(id string) (int, error)`
from tracer.go. -/
def MemEntryTable.GetOffsetOfEntry (m : MemEntryTable) (id : String) :
    Except EntryError Nat :=
  match mapLookup m.EntryMap id with
  | none => .error { Id := id }
  | some entry => .ok entry.Offset

/-- `func (m MemEntryTable) GetSizeOfEntry(id string) (int, error)`
from tracer.go. -/
def MemEntryTable.GetSizeOfEntry (m : MemEntryTable) (id : String) :
    Except EntryError Nat :=
  match mapLookup m.EntryMap id with
  | none => .error { Id := id }
  | some entry => .ok entry.Size

/-- Run a sequence of `Define` calls, threading the table. -/
def defineAll (m : MemEntryTable) (ds : List (String × List Nat)) : MemEntryTable :=
  ds.foldl (fun t d => (t.Define d.1 d.2).1) m

/-- Total byte size of a sequence of define requests. -/
def sumSizes (ds : List (String × List Nat)) : Nat :=
  (ds.map (fun d => d.2.length)).sum

/-- Sum of the `Size` fields of the entries recorded in an entry map. -/
def entrySizeSum (m : List (String × MemEntry)) : Nat :=
  (m.map (fun p => p.2.Size)).sum

theorem defineAll_append (m : MemEntryTable) (ds es : List (String × List Nat)) :
    defineAll m (ds ++ es) = defineAll (defineAll m ds) es := by
  simp [defineAll, List.foldl_append]

theorem defineAll_counter (m : MemEntryTable) (ds : List (String × List Nat)) :
    (defineAll m ds).MemoryCounter = m.MemoryCounter + sumSizes ds := by
  induction ds generalizing m with
  | nil => simp [defineAll, sumSizes]
  | cons d ds ih =>
      simp only [defineAll, List.foldl_cons, sumSizes, List.map_cons, List.sum_cons] at *
      rw [ih]
      simp [MemEntryTable.Define]
      omega

theorem mapLookup_insert_self (m : List (String × MemEntry)) (id : String) (e : MemEntry) :
    mapLookup (mapInsert m id e) id = some e := by
  induction m with
  | nil => simp [mapInsert, mapLookup]
  | cons p ps ih =>
      by_cases h : p.1 = id
      · simp [mapInsert, h, mapLookup]
      · simp [mapInsert, h, mapLookup, List.find?] at *
        simpa [mapLookup, h] using ih

/-- The keys currently bound in an entry map. -/
def mapKeys (m : List (String × MemEntry)) : List String :=
  m.map (·.1)

theorem mapInsert_of_not_mem (m : List (String × MemEntry)) (id : String) (e : MemEntry)
    (h : id ∉ mapKeys m) : mapInsert m id e = m ++ [(id, e)] := by
  induction m with
  | nil => simp [mapInsert]
  | cons p ps ih =>
      simp [mapKeys] at h
      simp [mapInsert, Ne.symm h.1, ih (by simp [mapKeys, h.2])]

theorem entrySizeSum_append (m₁ m₂ : List (String × MemEntry)) :
    entrySizeSum (m₁ ++ m₂) = entrySizeSum m₁ + entrySizeSum m₂ := by
  simp [entrySizeSum]

theorem defineAll_entrySizeSum (m : MemEntryTable) (ds : List (String × List Nat))
    (hnd : (ds.map (·.1)).Nodup)
    (hdisj : ∀ id ∈ ds.map (·.1), id ∉ mapKeys m.EntryMap) :
    entrySizeSum (defineAll m ds).EntryMap = entrySizeSum m.EntryMap + sumSizes ds := by
  induction ds generalizing m with
  | nil => simp [defineAll, sumSizes]
  | cons d ds ih =>
      simp only [List.map_cons, List.nodup_cons] at hnd
      have hd : d.1 ∉ mapKeys m.EntryMap := hdisj d.1 (by simp)
      have hmap : (defineAll m (d :: ds)) = defineAll ((m.Define d.1 d.2).1) ds := rfl
      rw [hmap, ih]
      · simp only [MemEntryTable.Define, mapInsert_of_not_mem _ _ _ hd,
          entrySizeSum_append, sumSizes, List.map_cons, List.sum_cons]
        simp [entrySizeSum]
        omega
      · exact hnd.2
      · intro id hid
        simp only [MemEntryTable.Define, mapInsert_of_not_mem _ _ _ hd, mapKeys,
          List.map_append, List.mem_append]
        rintro (hin | hin)
        · exact hdisj id (by simp [hid]) hin
        · simp at hin
          exact hnd.1 (hin ▸ hid)

/-- C1: in a sequence of `Define` calls starting from a fresh table, the
k-th call returns an entry whose `Offset` is the sum of the sizes of the
first k-1 values and whose `Size` is the k-th value's length, records that
entry under the given id, and after all calls `MemoryCounter` is the total
size. -/
theorem define_sequence_correct (ds : List (String × List Nat)) (k : Nat)
    (hk : k < ds.length) :
    (((defineAll NewMemEntryTable (ds.take k)).Define (ds.get ⟨k, hk⟩).1
        (ds.get ⟨k, hk⟩).2).2.Offset = sumSizes (ds.take k))
  ∧ (((defineAll NewMemEntryTable (ds.take k)).Define (ds.get ⟨k, hk⟩).1
        (ds.get ⟨k, hk⟩).2).2.Size = (ds.get ⟨k, hk⟩).2.length)
  ∧ (mapLookup ((defineAll NewMemEntryTable (ds.take k)).Define (ds.get ⟨k, hk⟩).1
        (ds.get ⟨k, hk⟩).2).1.EntryMap (ds.get ⟨k, hk⟩).1
      = some ((defineAll NewMemEntryTable (ds.take k)).Define (ds.get ⟨k, hk⟩).1
        (ds.get ⟨k, hk⟩).2).2)
  ∧ ((defineAll NewMemEntryTable ds).MemoryCounter = sumSizes ds) := by
  refine ⟨?_, rfl, ?_, ?_⟩
  · show (defineAll NewMemEntryTable (ds.take k)).MemoryCounter = _
    simp [defineAll_counter, NewMemEntryTable]
  · exact mapLookup_insert_self _ _ _
  · simp [defineAll_counter, NewMemEntryTable]

theorem define_sequence_correct_witness :
    (defineAll NewMemEntryTable [("a", [5]), ("b", [1, 2])]).MemoryCounter = 3 := by
  have h := define_sequence_correct [("a", [5]), ("b", [1, 2])] 1 (by decide)
  simpa [sumSizes] using h.2.2.2

/-- C3 counterexample: redefining an id makes `MemoryCounter` exceed the
sum of the sizes currently recorded in `EntryMap` (counter 2, sum 1). -/
theorem memoryCounter_entrySum_cex :
    ¬ ((defineAll NewMemEntryTable [("a", [0]), ("a", [0])]).MemoryCounter
        = entrySizeSum (defineAll NewMemEntryTable [("a", [0]), ("a", [0])]).EntryMap) := by
  decide

/-- C3 amended: after every sequence of `Define` calls, `MemoryCounter`
equals the `Offset` the next `Define` call assigns; and when no id is
defined twice, it also equals the sum of the `Size` fields recorded in
`EntryMap`. -/
theorem memoryCounter_invariant_amended (ds : List (String × List Nat)) :
    (∀ id v, ((defineAll NewMemEntryTable ds).Define id v).2.Offset
        = (defineAll NewMemEntryTable ds).MemoryCounter)
  ∧ ((ds.map (·.1)).Nodup →
      (defineAll NewMemEntryTable ds).MemoryCounter
        = entrySizeSum (defineAll NewMemEntryTable ds).EntryMap) := by
  refine ⟨fun id v => rfl, fun hnd => ?_⟩
  rw [defineAll_entrySizeSum NewMemEntryTable ds hnd (by simp [NewMemEntryTable, mapKeys])]
  simp [defineAll_counter, NewMemEntryTable, entrySizeSum]

theorem memoryCounter_invariant_amended_witness :
    (defineAll NewMemEntryTable [("a", [5]), ("b", [1, 2])]).MemoryCounter
      = entrySizeSum (defineAll NewMemEntryTable [("a", [5]), ("b", [1, 2])]).EntryMap :=
  (memoryCounter_invariant_amended [("a", [5]), ("b", [1, 2])]).2 (by decide)

/-- C9: looking up an id absent from `EntryMap` yields an error naming that
id (its message is the bracketed id followed by "definition doesn't
exist"); looking up a present id yields its `Offset` resp. `Size`. -/
theorem getEntry_spec (m : MemEntryTable) (id : String) :
    (mapLookup m.EntryMap id = none →
        m.GetOffsetOfEntry id = .error { Id := id }
      ∧ m.GetSizeOfEntry id = .error { Id := id }
      ∧ EntryError.Error { Id := id } = "[" ++ id ++ "] definition doesn't exist")
  ∧ ∀ e, mapLookup m.EntryMap id = some e →
      m.GetOffsetOfEntry id = .ok e.Offset ∧ m.GetSizeOfEntry id = .ok e.Size := by
  constructor
  · intro h
    refine ⟨?_, ?_, rfl⟩ <;>
      simp [MemEntryTable.GetOffsetOfEntry, MemEntryTable.GetSizeOfEntry, h]
  · intro e h
    constructor <;>
      simp [MemEntryTable.GetOffsetOfEntry, MemEntryTable.GetSizeOfEntry, h]

theorem getEntry_spec_witness :
    ((MemEntryTable.mk [("a", ⟨0, 1⟩)] 1).GetOffsetOfEntry "x"
        = .error { Id := "x" })
  ∧ ((MemEntryTable.mk [("a", ⟨0, 1⟩)] 1).GetSizeOfEntry "a" = .ok 1) :=
  ⟨((getEntry_spec ⟨[("a", ⟨0, 1⟩)], 1⟩ "x").1 (by decide)).1,
   ((getEntry_spec ⟨[("a", ⟨0, 1⟩)], 1⟩ "a").2 ⟨0, 1⟩ (by decide)).2⟩

/-! ## Bytecode assembler — from src/translate/bytecode.go

The assembler calls `operator.String()` from the `opcode` package, which
is not part of the sources here; the spec says it yields the mnemonic of a
recognized opcode and an error otherwise. We therefore pass the opcode
table as an explicit function `opStr : Nat → Option String` (`some`
mnemonic for a recognized opcode, `none` for the error case), so every
theorem below holds for every opcode table of that shape. -/

/-- Lowercase hexadecimal digit for a value below 16, as Go's `%x` verb. -/
def hexDigit (n : Nat) : Char :=
  if n < 10 then Char.ofNat (48 + n) else Char.ofNat (87 + n)

/-- One byte rendered as exactly two lowercase hex digits, as Go's `%x`
renders each byte of a `[]byte`. -/
def byteHex (b : Nat) : String :=
  String.mk [hexDigit (b % 256 / 16), hexDigit (b % 16)]

/-- `fmt.Sprintf("%x", bs)` for a byte slice `bs`: the bytes rendered as
two lowercase hex digits each, concatenated. -/
def hexFmt (bs : List Nat) : String :=
  String.join (bs.map byteHex)

/-- `AsmCode` from bytecode.go: one assembled unit, raw bytes plus its
disassembly text. -/
structure AsmCode where
  RawByte : List Nat
  Value : String
deriving Repr, DecidableEq

/-- `Asm` from bytecode.go: the ordered buffer of assembled units. -/
structure Asm where
  AsmCodes : List AsmCode
deriving Repr, DecidableEq

/-- `func convert(operator opcode.Type, operands ...[]byte) ([]AsmCode, error)`
from bytecode.go: one unit for the opcode byte with its mnemonic, then one
unit per operand with its hex rendering; errors exactly when
`operator.String()` does (opcode not recognized). -/
def convert (opStr : Nat → Option String) (operator : Nat)
    (operands : List (List Nat)) : Option (List AsmCode) :=
  match opStr operator with
  | none => none
  | some s =>
      some ({ RawByte := [operator % 256], Value := s }
        :: operands.map (fun o => { RawByte := o, Value := hexFmt o }))

/-- `func (a *Asm) Emerge(operator opcode.Type, operands ...[]byte) int`
from bytecode.go; returns the updated buffer together with the returned
count (Go mutates the receiver). -/
def Asm.Emerge (opStr : Nat → Option String) (a : Asm) (operator : Nat)
    (operands : List (List Nat)) : Asm × Nat :=
  match convert opStr operator operands with
  | none => (a, 0)
  | some asmCode =>
      (⟨a.AsmCodes ++ asmCode⟩, (a.AsmCodes ++ asmCode).length)

/-- `func (a *Asm) EmergeAt(index int, operator opcode.Type, operands ...[]byte) int`
from bytecode.go: `append(a.AsmCodes[:index], append(asmCode, a.AsmCodes[index:]...)...)`,
i.e. the instruction's units are spliced in at `index`. -/
def Asm.EmergeAt (opStr : Nat → Option String) (a : Asm) (index : Nat)
    (operator : Nat) (operands : List (List Nat)) : Asm × Nat :=
  match convert opStr operator operands with
  | none => (a, 0)
  | some asmCode =>
      (⟨a.AsmCodes.take index ++ asmCode ++ a.AsmCodes.drop index⟩,
       (a.AsmCodes.take index ++ asmCode ++ a.AsmCodes.drop index).length)

/-- `func (a *Asm) ReplaceOperandAt(index int, operands []byte) error`
from bytecode.go: overwrite the unit at `index` with an operand unit built
from the given bytes (always returns a nil error). -/
def Asm.ReplaceOperandAt (a : Asm) (index : Nat) (operands : List Nat) : Asm :=
  ⟨a.AsmCodes.set index { RawByte := operands, Value := hexFmt operands }⟩

/-- `func (a *Asm) ReplaceOperatorAt(index int, operator opcode.Type) error`
from bytecode.go. -/
def Asm.ReplaceOperatorAt (opStr : Nat → Option String) (a : Asm) (index : Nat)
    (operator : Nat) : Option Asm :=
  match opStr operator with
  | none => none
  | some s => some ⟨a.AsmCodes.set index { RawByte := [operator % 256], Value := s }⟩

/-- `func (a *Asm) Equal(a1 Asm) bool` from bytecode.go: false on a length
mismatch, otherwise positional comparison of each unit's `Value` text and
raw bytes. -/
def Asm.Equal (a : Asm) (a1 : Asm) : Bool :=
  if a.AsmCodes.length ≠ a1.AsmCodes.length then false
  else (a.AsmCodes.zip a1.AsmCodes).all fun p =>
    p.1.Value == p.2.Value && p.1.RawByte == p.2.RawByte

/-- `func (a *Asm) ToRawByteCode() []byte` from bytecode.go: the
concatenation of every unit's raw bytes. -/
def Asm.ToRawByteCode (a : Asm) : List Nat :=
  (a.AsmCodes.map (·.RawByte)).flatten

/-- Run a sequence of `Emerge` calls, threading the buffer. -/
def emergeAll (opStr : Nat → Option String) (a : Asm)
    (instrs : List (Nat × List (List Nat))) : Asm :=
  instrs.foldl (fun b i => (b.Emerge opStr i.1 i.2).1) a

/-- C4: `Emerge` with an unrecognized opcode returns 0 and leaves the
buffer unchanged; with a recognized opcode it appends exactly one opcode
unit followed by the operand units in order and returns the new unit
count. -/
theorem emerge_spec (opStr : Nat → Option String) (a : Asm) (op : Nat)
    (ops : List (List Nat)) :
    (opStr op = none → a.Emerge opStr op ops = (a, 0))
  ∧ ∀ s, opStr op = some s →
      ((a.Emerge opStr op ops).1.AsmCodes
          = a.AsmCodes ++ ({ RawByte := [op % 256], Value := s } : AsmCode)
              :: ops.map (fun o => { RawByte := o, Value := hexFmt o }))
    ∧ (a.Emerge opStr op ops).2 = a.AsmCodes.length + 1 + ops.length := by
  constructor
  · intro h
    simp [Asm.Emerge, convert, h]
  · intro s hs
    constructor
    · simp [Asm.Emerge, convert, hs]
    · simp [Asm.Emerge, convert, hs]
      omega

theorem emerge_spec_witness :
    ((Asm.mk []).Emerge (fun n => if n = 1 then some "Push" else none) 2 []
        = (⟨[]⟩, 0))
  ∧ (((Asm.mk []).Emerge (fun n => if n = 1 then some "Push" else none) 1
        [[0, 0, 0, 1]]).2 = 2) := by
  constructor
  · exact (emerge_spec (fun n => if n = 1 then some "Push" else none) ⟨[]⟩ 2 []).1
      (by simp)
  · exact ((emerge_spec (fun n => if n = 1 then some "Push" else none) ⟨[]⟩ 1
      [[0, 0, 0, 1]]).2 "Push" (by simp)).2

/-- C10: `EmergeAt` with an unrecognized opcode returns 0 and leaves the
buffer entirely unchanged, for every index. -/
theorem emergeAt_unrecognized (opStr : Nat → Option String) (a : Asm)
    (index : Nat) (op : Nat) (ops : List (List Nat)) (h : opStr op = none) :
    a.EmergeAt opStr index op ops = (a, 0) := by
  simp [Asm.EmergeAt, convert, h]

theorem emergeAt_unrecognized_witness :
    (Asm.mk [⟨[1], "Push"⟩]).EmergeAt
        (fun n => if n = 1 then some "Push" else none) 0 7 [[0, 0, 0, 1]]
      = (⟨[⟨[1], "Push"⟩]⟩, 0) :=
  emergeAt_unrecognized (fun n => if n = 1 then some "Push" else none)
    ⟨[⟨[1], "Push"⟩]⟩ 0 7 [[0, 0, 0, 1]] (by simp)

/-- C7: `EmergeAt` at an index within the buffer splices the opcode unit
and its operand units in at that index, keeps the surrounding units in
order, and returns the new total unit count. -/
theorem emergeAt_spec (opStr : Nat → Option String) (a : Asm) (index : Nat)
    (op : Nat) (ops : List (List Nat)) (s : String)
    (hi : index ≤ a.AsmCodes.length) (hs : opStr op = some s) :
    ((a.EmergeAt opStr index op ops).1.AsmCodes
        = a.AsmCodes.take index
            ++ ({ RawByte := [op % 256], Value := s } : AsmCode)
              :: ops.map (fun o => { RawByte := o, Value := hexFmt o })
            ++ a.AsmCodes.drop index)
  ∧ (a.EmergeAt opStr index op ops).2 = a.AsmCodes.length + 1 + ops.length := by
  constructor
  · simp [Asm.EmergeAt, convert, hs]
  · simp [Asm.EmergeAt, convert, hs, List.length_take, List.length_drop]
    omega

theorem emergeAt_spec_witness :
    ((Asm.mk [⟨[1], "Push"⟩, ⟨[9], "Pop"⟩]).EmergeAt
        (fun n => if n = 1 then some "Push" else none) 1 1 [[0, 0, 0, 5]]).2 = 4 :=
  (emergeAt_spec (fun n => if n = 1 then some "Push" else none)
    ⟨[⟨[1], "Push"⟩, ⟨[9], "Pop"⟩]⟩ 1 1 [[0, 0, 0, 5]] "Push"
    (by decide) (by simp)).2

theorem emergeAll_rawLength (opStr : Nat → Option String) (a : Asm)
    (instrs : List (Nat × List (List Nat)))
    (hrec : ∀ i ∈ instrs, (opStr i.1).isSome)
    (hlen : ∀ i ∈ instrs, ∀ o ∈ i.2, o.length = 4) :
    (emergeAll opStr a instrs).ToRawByteCode.length
      = a.ToRawByteCode.length + instrs.length
          + 4 * (instrs.map (fun i => i.2.length)).sum := by
  induction instrs generalizing a with
  | nil => simp [emergeAll]
  | cons i is ih =>
      obtain ⟨s, hs⟩ := Option.isSome_iff_exists.mp (hrec i (by simp))
      have hstep : (emergeAll opStr a (i :: is))
          = emergeAll opStr (a.Emerge opStr i.1 i.2).1 is := rfl
      rw [hstep, ih _ (fun j hj => hrec j (by simp [hj]))
        (fun j hj => hlen j (by simp [hj]))]
      have hcodes := ((emerge_spec opStr a i.1 i.2).2 s hs).1
      have hbytes : (a.Emerge opStr i.1 i.2).1.ToRawByteCode.length
          = a.ToRawByteCode.length + 1 + 4 * i.2.length := by
        have hops : (i.2.map (fun o => o.length)).sum = 4 * i.2.length := by
          have : i.2.map (fun o => o.length) = i.2.map (fun _ => 4) :=
            List.map_congr_left (fun o ho => hlen i (by simp) o ho)
          simp [this, List.map_const, List.sum_replicate, Nat.mul_comm]
        simp [Asm.ToRawByteCode, hcodes, List.map_map, Function.comp_def, hops]
        omega
      rw [hbytes]
      simp
      omega

/-- C5: starting from an empty buffer, for any sequence of `Emerge` calls
with recognized opcodes and 4-byte operands, the raw bytecode's length is
the number of opcodes plus 4 times the total number of operands. -/
theorem toRawByteCode_roundtrip_length (opStr : Nat → Option String)
    (instrs : List (Nat × List (List Nat)))
    (hrec : ∀ i ∈ instrs, (opStr i.1).isSome)
    (hlen : ∀ i ∈ instrs, ∀ o ∈ i.2, o.length = 4) :
    (emergeAll opStr ⟨[]⟩ instrs).ToRawByteCode.length
      = instrs.length + 4 * (instrs.map (fun i => i.2.length)).sum := by
  simpa [Asm.ToRawByteCode] using emergeAll_rawLength opStr ⟨[]⟩ instrs hrec hlen

theorem toRawByteCode_roundtrip_length_witness :
    (emergeAll (fun n => if n = 1 then some "Push" else none) ⟨[]⟩
        [(1, [[0, 0, 0, 1]]), (1, [[0, 0, 0, 2]])]).ToRawByteCode.length = 10 := by
  have h := toRawByteCode_roundtrip_length
    (fun n => if n = 1 then some "Push" else none)
    [(1, [[0, 0, 0, 1]]), (1, [[0, 0, 0, 2]])]
    (by intro i hi; fin_cases hi <;> simp)
    (by intro i hi; fin_cases hi <;> simp)
  simpa using h

/-- C6 counterexample: replacing the unit at an in-bounds index with a
4-byte operand does not preserve the raw bytecode's length when the old
unit was a 1-byte opcode unit (the length grows from 1 to 4). -/
theorem replaceOperandAt_length_cex :
    ¬ (((Asm.mk [⟨[1], "Push"⟩]).ReplaceOperandAt 0 [0, 0, 0, 2]).ToRawByteCode.length
        = (Asm.mk [⟨[1], "Push"⟩]).ToRawByteCode.length) := by
  decide

/-- C6 amended: when the unit at the in-bounds index itself holds 4 raw
bytes (as an operand emitted by `Emerge` does), `ReplaceOperandAt` with a
4-byte value overwrites only that unit, keeps the unit count, puts the
replacement bytes at the byte offset the old unit occupied, and keeps the
raw bytecode's total length. -/
theorem replaceOperandAt_spec (a : Asm) (i : Nat) (bs : List Nat)
    (hi : i < a.AsmCodes.length) (hb : bs.length = 4)
    (hold : (a.AsmCodes.get ⟨i, hi⟩).RawByte.length = 4) :
    ((a.ReplaceOperandAt i bs).AsmCodes.length = a.AsmCodes.length)
  ∧ (∀ j, j ≠ i → (a.ReplaceOperandAt i bs).AsmCodes[j]? = a.AsmCodes[j]?)
  ∧ ((a.ReplaceOperandAt i bs).AsmCodes[i]? = some ⟨bs, hexFmt bs⟩)
  ∧ ((a.ReplaceOperandAt i bs).ToRawByteCode
        = ((a.AsmCodes.take i).map (·.RawByte)).flatten ++ bs
            ++ ((a.AsmCodes.drop (i + 1)).map (·.RawByte)).flatten)
  ∧ (a.ToRawByteCode
        = ((a.AsmCodes.take i).map (·.RawByte)).flatten
            ++ (a.AsmCodes.get ⟨i, hi⟩).RawByte
            ++ ((a.AsmCodes.drop (i + 1)).map (·.RawByte)).flatten)
  ∧ ((a.ReplaceOperandAt i bs).ToRawByteCode.length = a.ToRawByteCode.length) := by
  have hset : (a.ReplaceOperandAt i bs).AsmCodes
      = a.AsmCodes.take i ++ (⟨bs, hexFmt bs⟩ : AsmCode) :: a.AsmCodes.drop (i + 1) :=
    List.set_eq_take_cons_drop _ hi
  have hdecomp : a.AsmCodes
      = a.AsmCodes.take i ++ a.AsmCodes.get ⟨i, hi⟩ :: a.AsmCodes.drop (i + 1) := by
    conv_lhs => rw [← List.take_append_drop i a.AsmCodes]
    rw [List.drop_eq_getElem_cons hi]
    simp [List.get_eq_getElem]
  refine ⟨by simp [Asm.ReplaceOperandAt], ?_, ?_, ?_, ?_, ?_⟩
  · intro j hj
    simp [Asm.ReplaceOperandAt, List.getElem?_set_ne (Ne.symm hj)]
  · simp [Asm.ReplaceOperandAt, List.getElem?_set_eq_of_lt _ hi]
  · rw [Asm.ToRawByteCode, hset]
    simp only [List.map_append, List.map_cons, List.flatten_append, List.flatten_cons,
      List.append_assoc]
  · conv_lhs => rw [Asm.ToRawByteCode, hdecomp]
    simp only [List.map_append, List.map_cons, List.flatten_append, List.flatten_cons,
      List.append_assoc]
  · rw [Asm.ToRawByteCode, hset]
    conv_rhs => rw [Asm.ToRawByteCode, hdecomp]
    simp only [List.map_append, List.map_cons, List.flatten_append, List.flatten_cons,
      List.length_append, hb, hold]

theorem replaceOperandAt_spec_witness :
    ((Asm.mk [⟨[1], "Push"⟩, ⟨[0, 0, 0, 9], "00000009"⟩]).ReplaceOperandAt 1
        [0, 0, 0, 2]).ToRawByteCode.length
      = (Asm.mk [⟨[1], "Push"⟩, ⟨[0, 0, 0, 9], "00000009"⟩]).ToRawByteCode.length :=
  (replaceOperandAt_spec ⟨[⟨[1], "Push"⟩, ⟨[0, 0, 0, 9], "00000009"⟩]⟩ 1
    [0, 0, 0, 2] (by decide) (by decide) (by decide)).2.2.2.2.2

theorem asmCode_eq_iff (x y : AsmCode) :
    x = y ↔ x.Value = y.Value ∧ x.RawByte = y.RawByte := by
  cases x
  cases y
  simp [and_comm]

theorem zipAll_eq_iff (xs ys : List AsmCode) (hlen : xs.length = ys.length) :
    (((xs.zip ys).all fun p => p.1.Value == p.2.Value && p.1.RawByte == p.2.RawByte)
        = true)
      ↔ xs = ys := by
  induction xs generalizing ys with
  | nil =>
      cases ys with
      | nil => simp
      | cons y ys => simp at hlen
  | cons x xs ih =>
      cases ys with
      | nil => simp at hlen
      | cons y ys =>
          simp only [List.length_cons, Nat.add_right_cancel_iff] at hlen
          simp only [List.zip_cons_cons, List.all_cons, Bool.and_eq_true, beq_iff_eq,
            List.cons.injEq, ih ys hlen, asmCode_eq_iff x y]

theorem asm_equal_iff (a b : Asm) : a.Equal b = true ↔ a.AsmCodes = b.AsmCodes := by
  rw [Asm.Equal]
  by_cases hlen : a.AsmCodes.length = b.AsmCodes.length
  · rw [if_neg (fun hc => hc hlen)]
    exact zipAll_eq_iff _ _ hlen
  · rw [if_pos hlen]
    simp only [Bool.false_eq_true, false_iff]
    exact fun hc => hlen (congrArg List.length hc)

/-- C8: `Equal` is reflexive and symmetric, and returns false whenever the
lengths differ or some unit at the same position differs in raw bytes or
textual value. -/
theorem equal_spec :
    (∀ a : Asm, a.Equal a = true)
  ∧ (∀ a b : Asm, a.Equal b = b.Equal a)
  ∧ (∀ a b : Asm, a.AsmCodes.length ≠ b.AsmCodes.length → a.Equal b = false)
  ∧ (∀ a b : Asm, ∀ i, ∀ hi : i < a.AsmCodes.length, ∀ hi' : i < b.AsmCodes.length,
      ((a.AsmCodes.get ⟨i, hi⟩).RawByte ≠ (b.AsmCodes.get ⟨i, hi'⟩).RawByte
        ∨ (a.AsmCodes.get ⟨i, hi⟩).Value ≠ (b.AsmCodes.get ⟨i, hi'⟩).Value)
      → a.Equal b = false) := by
  refine ⟨fun a => (asm_equal_iff a a).mpr rfl, ?_, ?_, ?_⟩
  · intro a b
    by_cases h : a.AsmCodes = b.AsmCodes
    · rw [(asm_equal_iff a b).mpr h, (asm_equal_iff b a).mpr h.symm]
    · have h1 : ¬ a.Equal b = true := fun hc => h ((asm_equal_iff a b).mp hc)
      have h2 : ¬ b.Equal a = true := fun hc => h ((asm_equal_iff b a).mp hc).symm
      rw [Bool.not_eq_true] at h1 h2
      rw [h1, h2]
  · intro a b h
    simp [Asm.Equal, h]
  · intro a b i hi hi' hdiff
    cases hEq : a.Equal b with
    | false => rfl
    | true =>
        exfalso
        have hl := (asm_equal_iff a b).mp hEq
        have hget : a.AsmCodes.get ⟨i, hi⟩ = b.AsmCodes.get ⟨i, hi'⟩ := by
          cases a
          cases b
          simp only [] at hl
          subst hl
          rfl
        rcases hdiff with hd | hd <;> exact hd (by rw [hget])

theorem equal_spec_witness :
    (Asm.mk [⟨[1], "Push"⟩, ⟨[0, 0, 0, 1], "00000001"⟩]).Equal
      (Asm.mk [⟨[1], "Push"⟩, ⟨[0, 0, 0, 2], "00000002"⟩]) = false :=
  equal_spec.2.2.2 ⟨[⟨[1], "Push"⟩, ⟨[0, 0, 0, 1], "00000001"⟩]⟩
    ⟨[⟨[1], "Push"⟩, ⟨[0, 0, 0, 2], "00000002"⟩]⟩ 1 (by decide) (by decide)
    (Or.inl (by decide))

/-! ## Lexer driver loop — from src/parse/lex.go

`Lexer.run` iterates `for stateFn := DefaultStateFn; stateFn != nil;
stateFn = stateFn(state, l)` and closes the token channel only after the
loop exits. The file defines exactly two state functions, and neither
emits a token nor touches the state: `DefaultStateFn` returns
`DefaultStateFn` and `NumberStateFn` returns `DefaultStateFn`. We model
the closed set of state functions as a tag type, a step function read off
those bodies, and the driver loop as fuelled iteration; reaching `none`
models the loop's `stateFn != nil` test failing. -/

/-- `state` from lex.go: the input with scan positions. -/
structure LexState where
  input : String
  start : Nat
  pos : Nat
  line : Nat
deriving Repr, DecidableEq

/-- The closed set of state functions defined in lex.go:
`DefaultStateFn` and `NumberStateFn`. -/
inductive StateFnTag
  | defaultFn
  | numberFn
deriving Repr, DecidableEq

/-- One invocation of a state function, from the bodies in lex.go: both
`DefaultStateFn` and `NumberStateFn` leave the state unchanged, emit no
token, and return `DefaultStateFn` (never nil). -/
def stepStateFn : StateFnTag → LexState → LexState × Option StateFnTag
  | .defaultFn, s => (s, some .defaultFn)
  | .numberFn, s => (s, some .defaultFn)

/-- The driver loop of `Lexer.run`, fuelled: starting from a current state
function (`none` models the terminal nil), run up to `n` iterations and
return the pending state function and state. `run` exits its loop, and so
closes the token channel, exactly when some finite fuel reaches `none`. -/
def runSteps : Nat → Option StateFnTag → LexState → Option StateFnTag × LexState
  | 0, fn, s => (fn, s)
  | _ + 1, none, s => (none, s)
  | n + 1, some fn, s => runSteps n (stepStateFn fn s).2 (stepStateFn fn s).1

/-- C2 refutation: for every input state and every number of iterations,
the driver loop started at `DefaultStateFn` is still at `DefaultStateFn` —
it never reaches the terminal nil, so `Lexer.run` never exits the loop and
never closes the token channel. -/
theorem lexer_loop_never_terminates (n : Nat) (s : LexState) :
    runSteps n (some StateFnTag.defaultFn) s = (some StateFnTag.defaultFn, s) := by
  induction n generalizing s with
  | zero => rfl
  | succ n ih => exact ih s

end Koa
